import Mathlib

/-!
Verification development for the codebuddy2cc streaming protocol translator.

The Go sources are shallowly embedded: Go strings that only serve as keys or
accumulated text are Lean `String`s; byte-level algorithms (the UTF-8-safe
chunker and the SSE stream parser) work on `List Nat` with each element a
byte value; fallible operations return `Option`.  All definitions are
translated from the Go sources (package handlers: session / SSE state /
parser / chunker; package utils: converter).
-/

/-! ## Aggregator data model (handlers: ToolCallsSession, AnthropicToolCall)

In Go, `toolCallsMap` and `toolCallsOrder` hold pointers to the same
`AnthropicToolCall` objects; an entry is inserted into both in the same
branch and both are cleared together, and a new entry is only created when
the map lookup fails, so ids in `toolCallsOrder` are unique and the map is
exactly association-by-id over the order list.  We therefore model the
session by its order list and model the map lookup as `find?` by id;
mutation through the shared pointer becomes an update of the (unique)
element with that id. -/

/-- Go `AnthropicToolCall`: `Arguments strings.Builder` is its accumulated
string. -/
structure AnthropicToolCall where
  id : String
  name : String
  arguments : String
  deriving Repr, DecidableEq

/-- Go (utils) `OpenAIToolCall` restricted to the fields the aggregator
reads: `ID`, `Function.Name`, `Function.Arguments`.  (`Index` and `Type`
are never consulted by `processToolCallsUnified`.) -/
structure OpenAIToolCall where
  id : String
  functionName : String
  functionArguments : String
  deriving Repr, DecidableEq

/-- Go `utils.OpenAIMessage` in its role as `Choice.Delta`: only the
`ToolCalls` and `Content` fields are consulted by the response loop
(`Content any` is modelled as the string case or absent, the only case the
code acts on). -/
structure OpenAIDelta where
  toolCalls : Option (List OpenAIToolCall)
  content : Option String
  deriving Repr, DecidableEq

/-- Go `utils.OpenAIChoice` restricted to the fields the aggregator and the
response loop read. -/
structure OpenAIChoice where
  delta : Option OpenAIDelta
  finishReason : Option String
  deriving Repr, DecidableEq

/-- Go `const MaxToolCalls = 32`. -/
def MaxToolCalls : Nat := 32

/-- Go `ToolProcessResult` enum. -/
inductive ToolProcessResult where
  | ToolProcessContinue
  | ToolProcessDone
  | ToolProcessError
  deriving Repr, DecidableEq

/-- Go `ToolCallsSession`; see the note above on the map/order aliasing. -/
structure ToolCallsSession where
  toolCallsOrder : List AnthropicToolCall
  requestID : String
  deriving Repr, DecidableEq

/-- Go `newToolCallsSession`. -/
def newToolCallsSession (requestID : String) : ToolCallsSession :=
  { toolCallsOrder := [], requestID := requestID }

/-- The Go `toolCallsMap[id]` lookup (shared-pointer map modelled as
association by id over the order list). -/
def toolCallsMapLookup (s : ToolCallsSession) (id : String) : Option AnthropicToolCall :=
  s.toolCallsOrder.find? (fun t => t.id = id)

/-- The two per-fragment updates in `processToolCallsUnified`:
name is set once (first non-empty wins), arguments are appended when the
fragment's arguments are non-empty. -/
def applyFragment (t : AnthropicToolCall) (tc : OpenAIToolCall) : AnthropicToolCall :=
  let t1 := if tc.functionName ≠ "" ∧ t.name = "" then { t with name := tc.functionName } else t
  if tc.functionArguments ≠ "" then { t1 with arguments := t1.arguments ++ tc.functionArguments } else t1

/-- Update the last element of a list (the Go no-id continuation writes
through the pointer `toolCallsOrder[len-1]`). -/
def updateLast (f : AnthropicToolCall → AnthropicToolCall) : List AnthropicToolCall → List AnthropicToolCall
  | [] => []
  | [a] => [f a]
  | a :: b :: rest => a :: updateLast f (b :: rest)

/-- One iteration of the `for _, openaiTool := range choice.Delta.ToolCalls`
loop body of `processToolCallsUnified`.  `none` is the `return
ToolProcessError` exit taken when a new identifier would exceed
`MaxToolCalls`. -/
def processFragment (s : ToolCallsSession) (tc : OpenAIToolCall) : Option ToolCallsSession :=
  if tc.id ≠ "" then
    if (toolCallsMapLookup s tc.id).isSome then
      some { s with toolCallsOrder :=
        s.toolCallsOrder.map (fun t => if t.id = tc.id then applyFragment t tc else t) }
    else if MaxToolCalls ≤ s.toolCallsOrder.length then
      none
    else
      some { s with toolCallsOrder :=
        s.toolCallsOrder ++ [applyFragment { id := tc.id, name := "", arguments := "" } tc] }
  else
    match s.toolCallsOrder with
    | [] => some s
    | _ :: _ => some { s with toolCallsOrder := updateLast (fun t => applyFragment t tc) s.toolCallsOrder }

/-- The fragment loop of `processToolCallsUnified`.  On the error exit the
session keeps the mutations of the fragments already absorbed (in Go the
session is mutated in place and the loop returns mid-way). -/
def processList (s : ToolCallsSession) : List OpenAIToolCall → ToolCallsSession × Bool
  | [] => (s, true)
  | tc :: rest =>
    match processFragment s tc with
    | none => (s, false)
    | some s' => processList s' rest

/-- The trailing finish-reason check of `processToolCallsUnified`. -/
def finishCheck (s : ToolCallsSession) (choice : OpenAIChoice) : ToolCallsSession × ToolProcessResult :=
  if choice.finishReason = some "tool_calls" then (s, .ToolProcessDone)
  else (s, .ToolProcessContinue)

/-- Go `(*ToolCallsSession).processToolCallsUnified`.  The second Go
parameter `isStream` is unused by the body and omitted. -/
def processToolCallsUnified (s : ToolCallsSession) (choice : OpenAIChoice) : ToolCallsSession × ToolProcessResult :=
  match choice.delta with
  | some d =>
    match d.toolCalls with
    | some tcs =>
      match processList s tcs with
      | (s', true) => (s', .ToolProcessContinue)
      | (s', false) => (s', .ToolProcessError)
    | none => finishCheck s choice
  | none => finishCheck s choice

/-! ## Response assembler loop (handlers: processUnifiedResponse)

We model the per-chunk dispatch of the `for` loop of
`processUnifiedResponse` at the granularity of one parsed `OpenAIChoice`
per upstream chunk (the loop only ever reads `Choices[0]`). -/

/-- Go `utils.ContentBlock` restricted to the fields the response loop
writes (`Type`, `Text`). -/
structure ContentBlock where
  type : String
  text : String
  deriving Repr, DecidableEq

/-- The running state of the `processUnifiedResponse` loop. -/
structure AssemblerState where
  session : ToolCallsSession
  isToolCall : Bool
  stopReason : String
  contentBlocks : List ContentBlock
  deriving Repr, DecidableEq

/-- The Go text-delta accumulation: walk `contentBlocks` from the end and
append to the last block of type `text` (no change when none exists). -/
def appendTextRev (c : String) : List ContentBlock → List ContentBlock
  | [] => []
  | b :: rest =>
    if b.type = "text" then { b with text := b.text ++ c } :: rest
    else b :: appendTextRev c rest

/-- `processUnifiedResponse`: a first text delta opens a block, later ones
are appended to the last text block. -/
def appendTextDelta (blocks : List ContentBlock) (c : String) : List ContentBlock :=
  match blocks with
  | [] => [{ type := "text", text := c }]
  | _ :: _ => (appendTextRev c blocks.reverse).reverse

/-- Whether the Go dispatch condition
`choice.Delta != nil && choice.Delta.ToolCalls != nil && len(...) > 0`
holds. -/
def choiceHasToolCalls (choice : OpenAIChoice) : Bool :=
  match choice.delta with
  | some d => match d.toolCalls with
    | some tcs => 0 < tcs.length
    | none => false
  | none => false

/-- The body of the `processUnifiedResponse` loop for one parsed choice.
Note that the result of `toolManager.ProcessToolCalls` is discarded by the
Go loop: only the mutated session survives. -/
def assembleChoice (st : AssemblerState) (choice : OpenAIChoice) : AssemblerState :=
  if choiceHasToolCalls choice ∨ choice.finishReason = some "tool_calls" then
    let s' := (processToolCallsUnified st.session choice).1
    if choice.finishReason = some "tool_calls" then
      { st with session := s', isToolCall := true, stopReason := "tool_use" }
    else
      { st with session := s' }
  else
    match st.isToolCall, choice.delta with
    | false, some d =>
      match d.content with
      | some c =>
        if c ≠ "" then { st with contentBlocks := appendTextDelta st.contentBlocks c } else st
      | none => st
    | _, _ => st

/-- Folding the loop body over the parsed chunks of one response. -/
def processChoices (st : AssemblerState) (choices : List OpenAIChoice) : AssemblerState :=
  choices.foldl assembleChoice st

/-- The initial loop state of `processUnifiedResponse`. -/
def initialAssemblerState (requestID : String) : AssemblerState :=
  { session := newToolCallsSession requestID
    isToolCall := false
    stopReason := "end_turn"
    contentBlocks := [] }

/-! ## Request validation (utils/converter.go: validateAndFixToolResults) -/

/-- Go `utils.Message` restricted to the fields `validateAndFixToolResults`
reads: `Role` and the ids of `ToolCalls`. -/
structure RequestMessage where
  role : String
  toolCallIDs : List String
  deriving Repr, DecidableEq

/-- Go `validateAndFixToolResults`: collects the ids of assistant tool
calls, the `toolResultMap` is never populated, missing results are only
logged (`DebugLog`), and the function unconditionally returns `nil`
(modelled as `none`). -/
def validateAndFixToolResults (messages : List RequestMessage) : Option String :=
  let _toolCallIDs :=
    (messages.filter (fun m => m.role = "assistant" ∧ 0 < m.toolCallIDs.length)).flatMap
      (fun m => m.toolCallIDs)
  none

/-- The `MessagesHandler` guard: the 500 "Tool results validation failed"
branch is taken exactly when `ValidateAndFixToolResults` returns an
error. -/
def handlerToolValidationRejects (messages : List RequestMessage) : Bool :=
  (validateAndFixToolResults messages).isSome

/-! ## String helper lemmas -/

lemma str_foldl_append (l : List String) (a : String) :
    l.foldl (· ++ ·) a = a ++ l.foldl (· ++ ·) "" := by
  induction l generalizing a with
  | nil => simp [String.append_empty]
  | cons b t ih =>
    simp only [List.foldl_cons]
    rw [ih (a ++ b), ih ("" ++ b), String.empty_append, String.append_assoc]

lemma str_join_cons (a : String) (l : List String) :
    String.join (a :: l) = a ++ String.join l := by
  simp only [String.join, List.foldl_cons]
  rw [str_foldl_append l ("" ++ a), String.empty_append]

lemma str_join_filter_ne_empty (l : List String) :
    String.join (l.filter (· ≠ "")) = String.join l := by
  induction l with
  | nil => rfl
  | cons a t ih =>
    by_cases ha : a = ""
    · subst ha
      rw [str_join_cons]
      simpa [String.empty_append] using ih
    · rw [List.filter_cons_of_pos (by simpa using ha), str_join_cons, str_join_cons, ih]

/-! ## C1: single-identifier argument accumulation -/

lemma applyFragment_arguments (t : AnthropicToolCall) (tc : OpenAIToolCall) :
    (applyFragment t tc).arguments = t.arguments ++ tc.functionArguments := by
  unfold applyFragment
  by_cases hn : tc.functionName ≠ "" ∧ t.name = "" <;>
    by_cases ha : tc.functionArguments = "" <;>
      simp [hn, ha, String.append_empty]

lemma applyFragment_id (t : AnthropicToolCall) (tc : OpenAIToolCall) :
    (applyFragment t tc).id = t.id := by
  unfold applyFragment
  by_cases hn : tc.functionName ≠ "" ∧ t.name = "" <;>
    by_cases ha : tc.functionArguments = "" <;>
      simp [hn, ha]

/-- Absorbing fragments that all bear the identifier of the single existing
invocation appends their argument texts in order. -/
lemma processList_single_id (x : String) (hx : x ≠ "") :
    ∀ (frags : List OpenAIToolCall) (s : ToolCallsSession) (t : AnthropicToolCall),
      (∀ f ∈ frags, f.id = x) → s.toolCallsOrder = [t] → t.id = x →
      ∃ t', processList s frags = ({ s with toolCallsOrder := [t'] }, true) ∧
        t'.id = x ∧
        t'.arguments = t.arguments ++ String.join (frags.map (·.functionArguments)) := by
  intro frags
  induction frags with
  | nil =>
    intro s t _ hs ht
    refine ⟨t, ?_, ht, by simp [String.join, String.append_empty]⟩
    simp [processList, ← hs]
  | cons f rest ih =>
    intro s t hall hs ht
    have hf : f.id = x := hall f (List.mem_cons_self f rest)
    have hfrag : processFragment s f =
        some { s with toolCallsOrder := [applyFragment t f] } := by
      unfold processFragment
      rw [hf]
      have hlook : toolCallsMapLookup s x = some t := by
        unfold toolCallsMapLookup
        rw [hs]
        simp [List.find?, ht]
      simp only [toolCallsMapLookup] at hlook
      simp [hx, toolCallsMapLookup, hlook, hs, ht]
    obtain ⟨t', hrun, ht'id, ht'args⟩ :=
      ih { s with toolCallsOrder := [applyFragment t f] } (applyFragment t f)
        (fun g hg => hall g (List.mem_cons_of_mem f hg)) rfl
        (by rw [applyFragment_id, ht])
    refine ⟨t', ?_, ht'id, ?_⟩
    · simp only [processList, hfrag]
      exact hrun
    · rw [ht'args, applyFragment_arguments, List.map_cons, str_join_cons,
        String.append_assoc]

/-- C1: for every sequence of tool-call fragments delivered for a single
invocation identifier, the final accumulated argument text of that
invocation equals the ordered concatenation of the non-empty argument
texts of those fragments, in delivery order. -/
theorem claim_C1_argument_accumulation (rid : String) (frags : List OpenAIToolCall)
    (x : String) (hx : x ≠ "") (hall : ∀ f ∈ frags, f.id = x) :
    (processList (newToolCallsSession rid) frags).2 = true ∧
    (processList (newToolCallsSession rid) frags).1.toolCallsOrder.map (·.arguments) =
      if frags = [] then []
      else [String.join ((frags.map (·.functionArguments)).filter (· ≠ ""))] := by
  cases frags with
  | nil => simp [processList, newToolCallsSession]
  | cons f rest =>
    have hf : f.id = x := hall f (List.mem_cons_self f rest)
    have hstep : processFragment (newToolCallsSession rid) f =
        some { newToolCallsSession rid with
          toolCallsOrder := [applyFragment { id := f.id, name := "", arguments := "" } f] } := by
      unfold processFragment
      simp [hf, hx, toolCallsMapLookup, newToolCallsSession, MaxToolCalls]
    obtain ⟨t', hrun, _, hargs⟩ := processList_single_id x hx rest
      { newToolCallsSession rid with
        toolCallsOrder := [applyFragment { id := f.id, name := "", arguments := "" } f] }
      (applyFragment { id := f.id, name := "", arguments := "" } f)
      (fun g hg => hall g (List.mem_cons_of_mem f hg)) rfl
      (by rw [applyFragment_id]; exact hf)
    refine ⟨?_, ?_⟩
    · simp only [processList, hstep, hrun]
    · simp only [processList, hstep, hrun]
      rw [str_join_filter_ne_empty]
      simp only [List.map_cons, str_join_cons]
      rw [hargs, applyFragment_arguments]
      simp [String.empty_append, String.append_assoc]

/-- Witness for C1 at a concrete fragmented stream. -/
theorem claim_C1_argument_accumulation_witness :
    ("x" : String) ≠ "" ∧
    ((processList (newToolCallsSession "r")
        [{ id := "x", functionName := "f", functionArguments := "ab" },
         { id := "x", functionName := "", functionArguments := "cd" }]).2 = true ∧
      (processList (newToolCallsSession "r")
        [{ id := "x", functionName := "f", functionArguments := "ab" },
         { id := "x", functionName := "", functionArguments := "cd" }]).1.toolCallsOrder.map
          (·.arguments) =
        if ([{ id := "x", functionName := "f", functionArguments := "ab" },
             { id := "x", functionName := "", functionArguments := "cd" }] :
              List OpenAIToolCall) = [] then []
        else [String.join
          (([{ id := "x", functionName := "f", functionArguments := "ab" },
             { id := "x", functionName := "", functionArguments := "cd" }] :
               List OpenAIToolCall).map (·.functionArguments) |>.filter (· ≠ ""))]) :=
  ⟨by decide, claim_C1_argument_accumulation "r"
    [{ id := "x", functionName := "f", functionArguments := "ab" },
     { id := "x", functionName := "", functionArguments := "cd" }] "x"
    (by decide) (by decide)⟩

/-- C9: absorbing a fragment that bears no identifier while no invocation
exists yet leaves the aggregator unchanged and returns the continue
result. -/
theorem claim_C9_idless_fragment_skipped (s : ToolCallsSession) (tc : OpenAIToolCall)
    (c : Option String) (fr : Option String)
    (horder : s.toolCallsOrder = []) (hid : tc.id = "") :
    processToolCallsUnified s ⟨some ⟨some [tc], c⟩, fr⟩ = (s, .ToolProcessContinue) := by
  unfold processToolCallsUnified
  simp only [processList, processFragment, hid, horder]
  simp [processList]

/-- Witness for C9 at a concrete session and fragment. -/
theorem claim_C9_idless_fragment_skipped_witness :
    (newToolCallsSession "r").toolCallsOrder = [] ∧
    (OpenAIToolCall.mk "" "n" "a").id = "" ∧
    processToolCallsUnified (newToolCallsSession "r")
        ⟨some ⟨some [OpenAIToolCall.mk "" "n" "a"], none⟩, none⟩ =
      (newToolCallsSession "r", .ToolProcessContinue) :=
  ⟨rfl, rfl, claim_C9_idless_fragment_skipped (newToolCallsSession "r")
    (OpenAIToolCall.mk "" "n" "a") none none rfl rfl⟩

/-- C10: `validateAndFixToolResults` never returns an error, so the
handler's tool-results-validation-failed branch is unreachable. -/
theorem claim_C10_validation_never_fails (messages : List RequestMessage) :
    validateAndFixToolResults messages = none ∧
    handlerToolValidationRejects messages = false := by
  exact ⟨rfl, rfl⟩

/-! ## Output sequencer (handlers: SSEStreamState)

The five mutating operations of `SSEStreamState` are embedded as pure
functions returning the new state, the list of emitted frames, and the Go
boolean result.  A frame is identified by its SSE event kind (the
`utils.SSEEvent...` constant passed to the formatter); the JSON payload
built by `AnthropicSSEFormatter` carries no information the sequencing
claims depend on.  `recordEvent` appends the kind to `eventHistory`; the
attached `SSEEventValidator` only logs and counts and never blocks
emission, so it is represented by the history itself. -/

/-- SSE event kind constants (utils/converter.go). -/
def SSEEventMessageStart : String := "message_start"

def SSEEventContentBlockStart : String := "content_block_start"

def SSEEventContentBlockDelta : String := "content_block_delta"

def SSEEventContentBlockStop : String := "content_block_stop"

def SSEEventMessageDelta : String := "message_delta"

def SSEEventMessageStop : String := "message_stop"

/-- Go `utils.Usage` (all Go `int` fields). -/
structure Usage where
  promptTokens : Int := 0
  completionTokens : Int := 0
  totalTokens : Int := 0
  inputTokens : Int := 0
  outputTokens : Int := 0
  cacheCreationInputTokens : Int := 0
  cacheReadInputTokens : Int := 0
  promptCacheHitTokens : Int := 0
  promptCacheMissTokens : Int := 0
  deriving Repr, DecidableEq

/-- Go `SSEStreamState` (the validator, timestamps and error counter only
feed debug logs). -/
structure SSEStreamState where
  messageStartSent : Bool
  contentBlockStarted : Bool
  streamFinished : Bool
  messageID : String
  messageModel : String
  currentBlockIndex : Nat
  toolCallsActive : Bool
  eventHistory : List String
  deriving Repr, DecidableEq

/-- Go `NewSSEStreamState`. -/
def newSSEStreamState : SSEStreamState :=
  { messageStartSent := false
    contentBlockStarted := false
    streamFinished := false
    messageID := ""
    messageModel := ""
    currentBlockIndex := 0
    toolCallsActive := false
    eventHistory := [] }

/-- Go `recordEvent` (history bookkeeping; validation only logs). -/
def recordEvent (s : SSEStreamState) (eventType : String) : SSEStreamState :=
  { s with eventHistory := s.eventHistory ++ [eventType] }

/-- Go `EnsureMessageStart`.  The `time.Now` based interim message id is
abstracted to a fixed placeholder; no claim depends on its value. -/
def ensureMessageStart (s : SSEStreamState) (messageID model : String) :
    SSEStreamState × List String × Bool :=
  if s.messageStartSent then (s, [], false)
  else
    let mid := if messageID = "" then "msg_interim" else messageID
    let mdl := if model = "" then "claude-unknown" else model
    let s1 := recordEvent { s with messageID := mid, messageModel := mdl } SSEEventMessageStart
    ({ s1 with messageStartSent := true }, [SSEEventMessageStart], true)

/-- Go `EnsureContentBlockStart`. -/
def ensureContentBlockStart (s : SSEStreamState) (_blockType : String) :
    SSEStreamState × List String × Bool :=
  if s.contentBlockStarted || s.toolCallsActive then (s, [], false)
  else
    let s1 := recordEvent s SSEEventContentBlockStart
    ({ s1 with contentBlockStarted := true }, [SSEEventContentBlockStart], true)

/-- Go `FinishContentBlock`. -/
def finishContentBlock (s : SSEStreamState) : SSEStreamState × List String × Bool :=
  if !s.contentBlockStarted then (s, [], false)
  else
    let s1 := recordEvent s SSEEventContentBlockStop
    ({ s1 with contentBlockStarted := false, currentBlockIndex := s1.currentBlockIndex + 1 },
      [SSEEventContentBlockStop], true)

/-- Go `ActivateToolCalls`. -/
def activateToolCalls (s : SSEStreamState) : SSEStreamState :=
  { s with toolCallsActive := true }

/-- Go `FinishStreamWithUsage` (`FinishStream` passes `usage = nil`).  The
final `ValidateCompleteSequence` call only logs and counts. -/
def finishStreamWithUsage (s : SSEStreamState) (_stopReason : String) (_usage : Option Usage) :
    SSEStreamState × List String × Bool :=
  if s.streamFinished then (s, [], false)
  else if s.contentBlockStarted then
    let s1 := { recordEvent s SSEEventContentBlockStop with contentBlockStarted := false }
    let s3 := recordEvent (recordEvent s1 SSEEventMessageDelta) SSEEventMessageStop
    ({ s3 with streamFinished := true },
      [SSEEventContentBlockStop, SSEEventMessageDelta, SSEEventMessageStop], true)
  else
    let s3 := recordEvent (recordEvent s SSEEventMessageDelta) SSEEventMessageStop
    ({ s3 with streamFinished := true }, [SSEEventMessageDelta, SSEEventMessageStop], true)

/-- One call on the `SSEStreamState` instance. -/
inductive SSEOp where
  | ensureMessageStart (messageID model : String)
  | ensureContentBlockStart (blockType : String)
  | finishContentBlock
  | activateToolCalls
  | finishStreamWithUsage (stopReason : String) (usage : Option Usage)
  deriving Repr

/-- Apply one operation, returning the new state and the emitted frames. -/
def applySSEOp (s : SSEStreamState) : SSEOp → SSEStreamState × List String
  | .ensureMessageStart mid mdl => ((ensureMessageStart s mid mdl).1, (ensureMessageStart s mid mdl).2.1)
  | .ensureContentBlockStart bt => ((ensureContentBlockStart s bt).1, (ensureContentBlockStart s bt).2.1)
  | .finishContentBlock => ((finishContentBlock s).1, (finishContentBlock s).2.1)
  | .activateToolCalls => (activateToolCalls s, [])
  | .finishStreamWithUsage r u => ((finishStreamWithUsage s r u).1, (finishStreamWithUsage s r u).2.1)

/-- Run a sequence of operations from a state, collecting all emitted
frames in order. -/
def runSSEOps (s : SSEStreamState) : List SSEOp → SSEStreamState × List String
  | [] => (s, [])
  | op :: ops =>
    let (s1, out1) := applySSEOp s op
    let (s2, out2) := runSSEOps s1 ops
    (s2, out1 ++ out2)

/-! ## C4: no block-close without a prior block-open -/

/-- Every block-close frame in the emission history is preceded by a
block-open frame. -/
def goodHist (out : List String) : Prop :=
  ∀ n, SSEEventContentBlockStop ∈ out.take n → SSEEventContentBlockStart ∈ out.take n

lemma goodHist_nil : goodHist [] := by
  intro n h
  simp at h

lemma goodHist_append (out new : List String) (h1 : goodHist out)
    (h2 : ∀ n, SSEEventContentBlockStop ∈ new.take n →
      SSEEventContentBlockStart ∈ out ∨ SSEEventContentBlockStart ∈ new.take n) :
    goodHist (out ++ new) := by
  intro n hmem
  rw [List.take_append_eq_append_take] at hmem ⊢
  rcases List.mem_append.mp hmem with hout | hnew
  · exact List.mem_append.mpr (Or.inl (h1 n hout))
  · rcases h2 _ hnew with hstart | hstart
    · have hlen : out.length ≤ n := by
        by_contra hlt
        push_neg at hlt
        have : n - out.length = 0 := Nat.sub_eq_zero_of_le (Nat.le_of_lt hlt)
        rw [this] at hnew
        simp at hnew
      refine List.mem_append.mpr (Or.inl ?_)
      rwa [List.take_of_length_le hlen]
    · exact List.mem_append.mpr (Or.inr hstart)

lemma goodHist_no_stop (out new : List String) (h1 : goodHist out)
    (h2 : SSEEventContentBlockStop ∉ new) : goodHist (out ++ new) := by
  refine goodHist_append out new h1 ?_
  intro n hmem
  exact absurd (List.mem_of_mem_take hmem) h2

/-- The inductive invariant of the sequencer run: an open block implies an
already-emitted block-open frame, and the history is well bracketed. -/
def SSEInv (s : SSEStreamState) (out : List String) : Prop :=
  (s.contentBlockStarted = true → SSEEventContentBlockStart ∈ out) ∧ goodHist out


lemma SSEInv_extend (s s' : SSEStreamState) (out fr : List String) (h : SSEInv s out)
    (hflag : s'.contentBlockStarted = true →
      s.contentBlockStarted = true ∨ SSEEventContentBlockStart ∈ fr)
    (hfr : ∀ n, SSEEventContentBlockStop ∈ fr.take n →
      s.contentBlockStarted = true ∨ SSEEventContentBlockStart ∈ fr.take n) :
    SSEInv s' (out ++ fr) := by
  constructor
  · intro hcb
    rcases hflag hcb with hl | hr
    · exact List.mem_append.mpr (Or.inl (h.1 hl))
    · exact List.mem_append.mpr (Or.inr hr)
  · exact goodHist_append out fr h.2 (fun n hm => (hfr n hm).imp h.1 id)

lemma applySSEOp_inv (s : SSEStreamState) (out : List String) (op : SSEOp)
    (h : SSEInv s out) :
    SSEInv (applySSEOp s op).1 (out ++ (applySSEOp s op).2) := by
  cases op with
  | ensureMessageStart mid mdl =>
    by_cases hs : s.messageStartSent
    · simp only [applySSEOp, ensureMessageStart, hs, if_true]
      exact SSEInv_extend s s out [] h (fun hcb => Or.inl hcb) (fun n hm => by simp at hm)
    · simp only [applySSEOp, ensureMessageStart, hs, if_false]
      refine SSEInv_extend s _ out [SSEEventMessageStart] h ?_ ?_
      · intro hcb
        exact Or.inl (by simpa [recordEvent] using hcb)
      · intro n hm
        exact absurd (List.mem_of_mem_take hm) (by decide)
  | ensureContentBlockStart bt =>
    by_cases hs : (s.contentBlockStarted || s.toolCallsActive) = true
    · simp only [applySSEOp, ensureContentBlockStart, hs, if_true]
      exact SSEInv_extend s s out [] h (fun hcb => Or.inl hcb) (fun n hm => by simp at hm)
    · simp only [applySSEOp, ensureContentBlockStart, hs, if_false]
      refine SSEInv_extend s _ out [SSEEventContentBlockStart] h ?_ ?_
      · intro _
        exact Or.inr (List.mem_singleton.mpr rfl)
      · intro n hm
        exact absurd (List.mem_of_mem_take hm) (by decide)
  | finishContentBlock =>
    by_cases hs : s.contentBlockStarted
    · simp only [applySSEOp, finishContentBlock, hs, Bool.not_true, if_false]
      exact SSEInv_extend s _ out [SSEEventContentBlockStop] h
        (fun _ => Or.inl hs) (fun n _ => Or.inl hs)
    · simp only [applySSEOp, finishContentBlock, Bool.not_eq_true', eq_false_of_ne_true hs]
      simp only [Bool.not_false, if_true]
      exact SSEInv_extend s s out [] h (fun hcb => Or.inl hcb) (fun n hm => by simp at hm)
  | activateToolCalls =>
    simp only [applySSEOp]
    exact SSEInv_extend s _ out [] h
      (fun hcb => Or.inl (by simpa [activateToolCalls] using hcb)) (fun n hm => by simp at hm)
  | finishStreamWithUsage r u =>
    by_cases hs : s.streamFinished
    · simp only [applySSEOp, finishStreamWithUsage, hs, if_true]
      exact SSEInv_extend s s out [] h (fun hcb => Or.inl hcb) (fun n hm => by simp at hm)
    · by_cases hcb : s.contentBlockStarted
      · simp only [applySSEOp, finishStreamWithUsage, hs, hcb, if_true, if_false]
        exact SSEInv_extend s _ out
          [SSEEventContentBlockStop, SSEEventMessageDelta, SSEEventMessageStop] h
          (fun _ => Or.inl hcb) (fun n _ => Or.inl hcb)
      · simp only [applySSEOp, finishStreamWithUsage, hs, hcb, if_false]
        refine SSEInv_extend s _ out [SSEEventMessageDelta, SSEEventMessageStop] h ?_ ?_
        · intro hcb'
          exact Or.inl (by simpa [recordEvent] using hcb')
        · intro n hm
          exact absurd (List.mem_of_mem_take hm) (by decide)

lemma runSSEOps_inv (ops : List SSEOp) :
    ∀ (s : SSEStreamState) (out : List String), SSEInv s out →
      SSEInv (runSSEOps s ops).1 (out ++ (runSSEOps s ops).2) := by
  induction ops with
  | nil =>
    intro s out h
    simpa [runSSEOps] using h
  | cons op ops ih =>
    intro s out h
    have h1 := applySSEOp_inv s out op h
    have h2 := ih (applySSEOp s op).1 (out ++ (applySSEOp s op).2) h1
    simpa [runSSEOps, List.append_assoc] using h2

/-- C4: in every sequence of operations on one `SSEStreamState` instance,
a block-close frame (`content_block_stop`) is never emitted unless a
block-open frame (`content_block_start`) was emitted earlier in that
response's history. -/
theorem claim_C4_no_close_without_open (ops : List SSEOp) (n : Nat)
    (hstop : SSEEventContentBlockStop ∈ ((runSSEOps newSSEStreamState ops).2.take n)) :
    SSEEventContentBlockStart ∈ ((runSSEOps newSSEStreamState ops).2.take n) := by
  have hinv : SSEInv newSSEStreamState [] :=
    ⟨by intro hcb; simp [newSSEStreamState] at hcb, goodHist_nil⟩
  have h := runSSEOps_inv ops newSSEStreamState [] hinv
  rw [List.nil_append] at h
  exact h.2 n hstop

/-- Witness for C4: a run that opens a message, opens a block and closes
it; the close at position 2 is preceded by the open. -/
theorem claim_C4_no_close_without_open_witness :
    SSEEventContentBlockStart ∈ ((runSSEOps newSSEStreamState
      [.ensureMessageStart "m" "claude", .ensureContentBlockStart "text",
        .finishContentBlock]).2.take 3) :=
  claim_C4_no_close_without_open
    [.ensureMessageStart "m" "claude", .ensureContentBlockStart "text", .finishContentBlock]
    3 (by decide)

/-- C5: `FinishStreamWithUsage` is idempotent: starting from an unfinished
state, the first call returns true and the closing message_delta /
message_stop pair is emitted exactly once over both calls; the second call
emits nothing, changes nothing and returns false. -/
theorem claim_C5_finish_idempotent (s : SSEStreamState) (r1 r2 : String)
    (u1 u2 : Option Usage) (h : s.streamFinished = false) :
    (finishStreamWithUsage s r1 u1).2.2 = true ∧
    (finishStreamWithUsage (finishStreamWithUsage s r1 u1).1 r2 u2).1 =
      (finishStreamWithUsage s r1 u1).1 ∧
    (finishStreamWithUsage (finishStreamWithUsage s r1 u1).1 r2 u2).2.1 = [] ∧
    (finishStreamWithUsage (finishStreamWithUsage s r1 u1).1 r2 u2).2.2 = false ∧
    ((finishStreamWithUsage s r1 u1).2.1 ++
        (finishStreamWithUsage (finishStreamWithUsage s r1 u1).1 r2 u2).2.1).count
      SSEEventMessageDelta = 1 ∧
    ((finishStreamWithUsage s r1 u1).2.1 ++
        (finishStreamWithUsage (finishStreamWithUsage s r1 u1).1 r2 u2).2.1).count
      SSEEventMessageStop = 1 := by
  by_cases hcb : s.contentBlockStarted
  · simp [finishStreamWithUsage, h, hcb, recordEvent, SSEEventContentBlockStop,
      SSEEventMessageDelta, SSEEventMessageStop, List.count_cons]
  · simp [finishStreamWithUsage, h, hcb, recordEvent, SSEEventMessageDelta,
      SSEEventMessageStop, List.count_cons]

/-- Witness for C5 at the fresh stream state. -/
theorem claim_C5_finish_idempotent_witness :
    (finishStreamWithUsage newSSEStreamState "end_turn" none).2.2 = true ∧
    (finishStreamWithUsage (finishStreamWithUsage newSSEStreamState "end_turn" none).1
      "end_turn" none).1 = (finishStreamWithUsage newSSEStreamState "end_turn" none).1 ∧
    (finishStreamWithUsage (finishStreamWithUsage newSSEStreamState "end_turn" none).1
      "end_turn" none).2.1 = [] ∧
    (finishStreamWithUsage (finishStreamWithUsage newSSEStreamState "end_turn" none).1
      "end_turn" none).2.2 = false ∧
    ((finishStreamWithUsage newSSEStreamState "end_turn" none).2.1 ++
        (finishStreamWithUsage (finishStreamWithUsage newSSEStreamState "end_turn" none).1
          "end_turn" none).2.1).count SSEEventMessageDelta = 1 ∧
    ((finishStreamWithUsage newSSEStreamState "end_turn" none).2.1 ++
        (finishStreamWithUsage (finishStreamWithUsage newSSEStreamState "end_turn" none).1
          "end_turn" none).2.1).count SSEEventMessageStop = 1 :=
  claim_C5_finish_idempotent newSSEStreamState "end_turn" "end_turn" none none rfl

/-! ## Chunked-stream reader (handlers: SSEStreamParser)

The parser works on raw bytes; we embed it over `List Nat` byte lists.
The underlying `io.Reader` is modelled as the list of the chunks its
successive `Read` calls return, followed by EOF; the cancellation signal
(`ctx.Done()`) is a boolean that the loop samples between reads, exactly
where the Go code does. -/

/-- `bytes.Index`-style search for the first occurrence of a pattern. -/
def findSub (pat : List Nat) : List Nat → Option Nat
  | [] => none
  | l@(_ :: rest) => if pat.isPrefixOf l then some 0 else (findSub pat rest).map (· + 1)

/-- `bytes.IndexByte`. -/
def findByte (b : Nat) : List Nat → Option Nat
  | [] => none
  | x :: rest => if x = b then some 0 else (findByte b rest).map (· + 1)

/-- ASCII whitespace set of `strings.TrimSpace` (all inputs the parser
trims in the claims are ASCII; the Unicode slow path never fires on
them). -/
def isSpaceByte (b : Nat) : Bool :=
  b = 32 || b = 9 || b = 10 || b = 11 || b = 12 || b = 13

/-- `strings.TrimSpace` on bytes. -/
def trimSpaceBytes (l : List Nat) : List Nat :=
  ((l.dropWhile isSpaceByte).reverse.dropWhile isSpaceByte).reverse

/-- The explicit byte-trim in `NextEvent`'s EOF residue handling (space,
tab, newline, carriage return). -/
def isEOFTrimByte (b : Nat) : Bool :=
  b = 32 || b = 9 || b = 10 || b = 13

def trimEOFBytes (l : List Nat) : List Nat :=
  ((l.dropWhile isEOFTrimByte).reverse.dropWhile isEOFTrimByte).reverse

/-- The bytes of `"data: "`. -/
def dataMarker : List Nat := [100, 97, 116, 97, 58, 32]

/-- The bytes of `"data: \x7b"` (the single-newline compatibility check
`strings.Contains(event, "data: ")` followed by an opening brace). -/
def dataJsonPat : List Nat := dataMarker ++ [123]

/-- The bytes of `"data: [DONE]"`. -/
def dataDonePat : List Nat := dataMarker ++ [91, 68, 79, 78, 69, 93]

/-- Go `(*SSEStreamParser).tryParseEvent`: returns the parsed event (the
empty list when no complete event is available) and the number of bytes
consumed. -/
def tryParseEvent (data : List Nat) : List Nat × Nat :=
  if data = [] then ([], 0)
  else
    match findSub dataMarker data with
    | none =>
      match findByte 10 data with
      | some newlineIdx => ([], newlineIdx + 1)
      | none => ([], 0)
    | some dataStart =>
      let tail := data.drop dataStart
      match findSub [10, 10] tail with
      | some doubleNewline =>
        (trimSpaceBytes (tail.take doubleNewline), dataStart + doubleNewline + 2)
      | none =>
        match findByte 10 tail with
        | some singleNewline =>
          let event := trimSpaceBytes (tail.take singleNewline)
          if (findSub dataJsonPat event).isSome || (findSub dataDonePat event).isSome then
            (event, dataStart + singleNewline + 1)
          else ([], 0)
        | none => ([], 0)

/-- Go `SSEStreamParser`: the buffer plus the modelled reader and
cancellation signal. -/
structure SSEStreamParser where
  buffer : List Nat
  reads : List (List Nat)
  cancelled : Bool
  deriving Repr, DecidableEq

/-- The outcome of one `NextEvent` call. -/
inductive SSEReadResult where
  | event (e : List Nat)
  | eof
  | cancelled
  deriving Repr, DecidableEq

/-- The `NextEvent` loop; each iteration either returns or consumes one
pending read, so `reads.length + 1` fuel always suffices (see
`nextEventFuel_independent`). -/
def nextEventFuel : Nat → SSEStreamParser → SSEReadResult × SSEStreamParser
  | 0, p => (.eof, p)
  | fuel + 1, p =>
    match tryParseEvent p.buffer with
    | (event, consumed) =>
      if event ≠ [] then (.event event, { p with buffer := p.buffer.drop consumed })
      else if p.cancelled then (.cancelled, p)
      else
        match p.reads with
        | [] =>
          let residue := trimEOFBytes p.buffer
          if residue ≠ [] then (.event residue, { p with buffer := [] })
          else (.eof, p)
        | c :: rest => nextEventFuel fuel { p with buffer := p.buffer ++ c, reads := rest }

/-- Go `(*SSEStreamParser).NextEvent`. -/
def nextEvent (p : SSEStreamParser) : SSEReadResult × SSEStreamParser :=
  nextEventFuel (p.reads.length + 1) p

/-- The concrete byte stream of C7:
`data: \x7b"a":1\x7d\n\ndata: [DONE]\n\n`. -/
def c7Input : List Nat :=
  [100, 97, 116, 97, 58, 32, 123, 34, 97, 34, 58, 49, 125, 10, 10,
   100, 97, 116, 97, 58, 32, 91, 68, 79, 78, 69, 93, 10, 10]

/-- The bytes of the first expected event `data: \x7b"a":1\x7d`. -/
def c7Event1 : List Nat := [100, 97, 116, 97, 58, 32, 123, 34, 97, 34, 58, 49, 125]

/-- The bytes of the second expected event `data: [DONE]`. -/
def c7Event2 : List Nat := [100, 97, 116, 97, 58, 32, 91, 68, 79, 78, 69, 93]

/-- C7: fed the byte stream of one read returning
`data: \x7b"a":1\x7d\n\ndata: [DONE]\n\n`, `NextEvent` produces exactly the
two events `data: \x7b"a":1\x7d` and `data: [DONE]` in order, then
end-of-stream. -/
theorem claim_C7_reader_two_events :
    (nextEvent { buffer := [], reads := [c7Input], cancelled := false }).1 =
      .event c7Event1 ∧
    (nextEvent (nextEvent { buffer := [], reads := [c7Input], cancelled := false }).2).1 =
      .event c7Event2 ∧
    (nextEvent (nextEvent
      (nextEvent { buffer := [], reads := [c7Input], cancelled := false }).2).2).1 =
      .eof := by
  decide

/-- C8: when the buffer holds no complete event and the cancellation
signal is already set, `NextEvent` returns the cancellation condition with
the parser unchanged — in particular no read is consumed from the
underlying byte source. -/
theorem claim_C8_cancelled_before_read (p : SSEStreamParser)
    (hempty : (tryParseEvent p.buffer).1 = [])
    (hcancel : p.cancelled = true) :
    nextEvent p = (.cancelled, p) := by
  have hpair : tryParseEvent p.buffer = ([], (tryParseEvent p.buffer).2) := by
    rw [← hempty]
  unfold nextEvent nextEventFuel
  rw [hpair]
  simp [hcancel]

/-- Witness for C8: a buffer holding only the incomplete prefix `data: `
with a pending read and the signal already cancelled. -/
theorem claim_C8_cancelled_before_read_witness :
    (tryParseEvent ([100, 97, 116, 97, 58, 32] : List Nat)).1 = [] ∧
    nextEvent { buffer := [100, 97, 116, 97, 58, 32], reads := [[97]], cancelled := true } =
      (.cancelled, { buffer := [100, 97, 116, 97, 58, 32], reads := [[97]], cancelled := true }) :=
  ⟨by decide, claim_C8_cancelled_before_read
    { buffer := [100, 97, 116, 97, 58, 32], reads := [[97]], cancelled := true }
    (by decide) rfl⟩

/-! ## C2: aggregator overflow and the response-assembly loop -/

lemma find_map_update (l : List AnthropicToolCall) (y : String) (f : OpenAIToolCall) :
    (l.map (fun t => if t.id = y then applyFragment t f else t)).find? (fun t => t.id = y) =
      (l.find? (fun t => t.id = y)).map (fun t => applyFragment t f) := by
  induction l with
  | nil => rfl
  | cons a rest ih =>
    by_cases h : a.id = y
    · simp [List.find?_cons, h, applyFragment_id]
    · simp [List.find?_cons, h, ih]

/-- C2 (amended): when a fragment bearing a new non-empty identifier
arrives while the aggregator already holds `MaxToolCalls` invocations,
`processToolCallsUnified` returns `ToolProcessError` with the aggregator
unchanged, skipping the remaining fragments of that same delta; however,
the response-assembly loop discards this result and keeps processing
subsequent fragments of the response (second conjunct: a later fragment
for an existing invocation is still absorbed by `assembleChoice`). -/
theorem claim_C2_overflow_amended (s : ToolCallsSession) (tc : OpenAIToolCall)
    (rest : List OpenAIToolCall) (c fr : Option String)
    (hid : tc.id ≠ "") (hnew : toolCallsMapLookup s tc.id = none)
    (hfull : MaxToolCalls ≤ s.toolCallsOrder.length) :
    processToolCallsUnified s ⟨some ⟨some (tc :: rest), c⟩, fr⟩ = (s, .ToolProcessError) ∧
    ∀ (st : AssemblerState) (y : String) (t : AnthropicToolCall) (args : String),
      y ≠ "" → toolCallsMapLookup st.session y = some t →
      (toolCallsMapLookup
          (assembleChoice st ⟨some ⟨some [⟨y, "", args⟩], none⟩, none⟩).session y).map
        (·.arguments) = some (t.arguments ++ args) := by
  constructor
  · have hfrag : processFragment s tc = none := by
      unfold processFragment
      simp [hid, hnew, hfull]
    unfold processToolCallsUnified
    simp [processList, hfrag]
  · intro st y t args hy hfind
    have hsome : (toolCallsMapLookup st.session y).isSome = true := by
      rw [hfind]
      rfl
    have hfrag : processFragment st.session ⟨y, "", args⟩ =
        some (ToolCallsSession.mk
          (st.session.toolCallsOrder.map
            (fun u => if u.id = y then applyFragment u ⟨y, "", args⟩ else u))
          st.session.requestID) := by
      unfold processFragment
      simp [hy, hsome]
    have hsub : toolCallsMapLookup
        (processToolCallsUnified st.session ⟨some ⟨some [⟨y, "", args⟩], none⟩, none⟩).1 y =
        some (applyFragment t ⟨y, "", args⟩) := by
      unfold processToolCallsUnified
      simp only [processList, hfrag]
      simp only [toolCallsMapLookup]
      rw [find_map_update]
      simp only [toolCallsMapLookup] at hfind
      rw [hfind]
      simp
    have hres : assembleChoice st ⟨some ⟨some [⟨y, "", args⟩], none⟩, none⟩ =
        { st with session :=
            (processToolCallsUnified st.session ⟨some ⟨some [⟨y, "", args⟩], none⟩, none⟩).1 } := by
      unfold assembleChoice
      simp [choiceHasToolCalls]
    rw [hres]
    simp only [hsub, Option.map_some]
    simp [applyFragment_arguments]

/-- One of the concrete overflow fragments: id `t<n>`, name `f`,
arguments `a`. -/
def c2Frag (n : Nat) : OpenAIToolCall :=
  { id := "t" ++ toString n, functionName := "f", functionArguments := "a" }

/-- An upstream chunk carrying the given fragments. -/
def c2Choice (tcs : List OpenAIToolCall) : OpenAIChoice :=
  { delta := some { toolCalls := some tcs, content := none }, finishReason := none }

/-- 33 chunks introducing 33 distinct identifiers, then one more chunk for
the already-existing identifier `t0`. -/
def c2Choices : List OpenAIChoice :=
  ((List.range 33).map (fun n => c2Choice [c2Frag n])) ++
    [c2Choice [{ id := "t0", functionName := "", functionArguments := "X" }]]

set_option maxRecDepth 16384 in
/-- C2 counterexample: the fragment introducing the 33rd identifier makes
the aggregator return the hard failure, yet the response-assembly loop
(which discards the result) still processes a later fragment of the same
response: the final arguments of `t0` are `aX`, extended after the
overflow. -/
theorem claim_C2_counterexample :
    (processToolCallsUnified
        (processChoices (initialAssemblerState "r")
          ((List.range 32).map (fun n => c2Choice [c2Frag n]))).session
        (c2Choice [c2Frag 32])).2 = .ToolProcessError ∧
    (toolCallsMapLookup (processChoices (initialAssemblerState "r") c2Choices).session
        "t0").map (·.arguments) = some "aX" := by
  decide

/-- The session after 32 distinct invocations have been created. -/
def c2FullSession : ToolCallsSession :=
  (processChoices (initialAssemblerState "r")
    ((List.range 32).map (fun n => c2Choice [c2Frag n]))).session

set_option maxRecDepth 16384 in
/-- Witness for the amended C2 at the concrete full session and the
fragment carrying the 33rd identifier. -/
theorem claim_C2_overflow_amended_witness :
    (c2Frag 32).id ≠ "" ∧
    toolCallsMapLookup c2FullSession (c2Frag 32).id = none ∧
    MaxToolCalls ≤ c2FullSession.toolCallsOrder.length ∧
    (processToolCallsUnified c2FullSession ⟨some ⟨some [c2Frag 32], none⟩, none⟩ =
        (c2FullSession, .ToolProcessError) ∧
      ∀ (st : AssemblerState) (y : String) (t : AnthropicToolCall) (args : String),
        y ≠ "" → toolCallsMapLookup st.session y = some t →
        (toolCallsMapLookup
            (assembleChoice st ⟨some ⟨some [⟨y, "", args⟩], none⟩, none⟩).session y).map
          (·.arguments) = some (t.arguments ++ args)) :=
  ⟨by decide, by decide, by decide,
    claim_C2_overflow_amended c2FullSession (c2Frag 32) [] none none
      (by decide) (by decide) (by decide)⟩

/-! ## UTF-8-safe chunker (handlers: splitUTF8SafeChunks)

The Go function works on the raw bytes of its input string; we embed it
over `List Nat` byte lists.  The Go standard-library helpers it relies on
(`unicode/utf8.RuneStart`, `utf8.DecodeRune`, `utf8.ValidString`,
`strings.ToValidUTF8`) are embedded from their specifications: the
first-byte classification table of the utf8 package (sizes and accepted
second-byte ranges per first byte, continuation bytes `0x80..0xBF`), with
`DecodeRune` returning size 1 on any invalid or truncated encoding. -/

/-- Continuation byte: `0x80 <= b <= 0xBF` (the utf8 package's
`locb..hicb` range).  For byte values this is exactly Go's
`b&0xC0 == 0x80`. -/
def isCont (b : Nat) : Bool := 0x80 ≤ b && b ≤ 0xBF

/-- Go `utf8.RuneStart`. -/
def runeStart (b : Nat) : Bool := !isCont b

/-- The accepted range of the second byte given the first byte (the utf8
package's `acceptRanges` table). -/
def accept2 (b0 b1 : Nat) : Bool :=
  if b0 = 0xE0 then 0xA0 ≤ b1 && b1 ≤ 0xBF
  else if b0 = 0xED then 0x80 ≤ b1 && b1 ≤ 0x9F
  else if b0 = 0xF0 then 0x90 ≤ b1 && b1 ≤ 0xBF
  else if b0 = 0xF4 then 0x80 ≤ b1 && b1 ≤ 0x8F
  else isCont b1

/-- Go `utf8.DecodeRune` restricted to what the callers use: the size
consumed and whether the decode succeeded (`(0, false)` on empty input,
`(1, false)` on an invalid or truncated encoding — Go returns
`(RuneError, 1)` there, and `(RuneError, 0)` on empty input). -/
def decodeSizeOk : List Nat → Nat × Bool
  | [] => (0, false)
  | b :: rest =>
    if b < 0x80 then (1, true)
    else if b < 0xC2 then (1, false)
    else if b ≤ 0xDF then
      match rest with
      | b1 :: _ => if isCont b1 then (2, true) else (1, false)
      | [] => (1, false)
    else if b ≤ 0xEF then
      match rest with
      | b1 :: b2 :: _ => if accept2 b b1 && isCont b2 then (3, true) else (1, false)
      | _ => (1, false)
    else if b ≤ 0xF4 then
      match rest with
      | b1 :: b2 :: b3 :: _ =>
        if accept2 b b1 && isCont b2 && isCont b3 then (4, true) else (1, false)
      | _ => (1, false)
    else (1, false)

/-- Go `utf8.ValidString` on bytes: the string consists entirely of valid
UTF-8 encodings, i.e. repeatedly decoding one rune (`decodeSizeOk`) never
fails.  Each successful decode consumes at least one byte, so `length`
fuel suffices (`utf8ValidFuel_congr`). -/
def utf8ValidFuel : Nat → List Nat → Bool
  | _, [] => true
  | 0, _ :: _ => false
  | fuel + 1, b :: rest =>
    match decodeSizeOk (b :: rest) with
    | (_, false) => false
    | (sz, true) => utf8ValidFuel fuel ((b :: rest).drop sz)

def utf8Valid (l : List Nat) : Bool := utf8ValidFuel l.length l

/-- The UTF-8 bytes of the replacement character `U+FFFD`. -/
def replacementCharBytes : List Nat := [0xEF, 0xBF, 0xBD]

/-- Go `strings.ToValidUTF8` (slow path; the fast path returns the input
unchanged when it is already valid, which coincides with the slow path):
valid runes are copied, each maximal run of invalid bytes is replaced by
one copy of the replacement.  Each iteration consumes at least one byte,
so `length` fuel suffices. -/
def toValidUTF8Fuel (repl : List Nat) : Nat → Bool → List Nat → List Nat
  | _, _, [] => []
  | 0, _, _ :: _ => []
  | fuel + 1, invalid, b :: rest =>
    if b < 0x80 then b :: toValidUTF8Fuel repl fuel false rest
    else
      match decodeSizeOk (b :: rest) with
      | (_, false) =>
        if invalid then toValidUTF8Fuel repl fuel true rest
        else repl ++ toValidUTF8Fuel repl fuel true rest
      | (sz, true) => (b :: rest).take sz ++ toValidUTF8Fuel repl fuel false ((b :: rest).drop sz)

def toValidUTF8 (s repl : List Nat) : List Nat := toValidUTF8Fuel repl s.length false s

/-- The back-off loop of `splitUTF8SafeChunks`: decrement `end` while it is
inside the input, above `start`, and not at a codepoint start. -/
def backoff (input : List Nat) (start : Nat) : Nat → Nat
  | 0 => 0
  | e + 1 =>
    if start < e + 1 && e + 1 < input.length && !runeStart (input.getD (e + 1) 0) then
      backoff input start e
    else e + 1

/-- One iteration's final `end` value in `splitUTF8SafeChunks`: the byte
budget capped at the input length, backed off to a codepoint start, and —
when backing off reached `start` — a forced advance of one decoded
codepoint (`utf8.DecodeRune` size, with the zero-size guard of the Go
code). -/
def chunkEnd (input : List Nat) (maxChunkSize start : Nat) : Nat :=
  let totalBytes := input.length
  let end0 := min (start + maxChunkSize) totalBytes
  let end1 := backoff input start end0
  if end1 ≤ start then
    let size0 := (decodeSizeOk (input.drop start)).1
    let size := if size0 = 0 then 1 else size0
    min (start + size) totalBytes
  else end1

/-- One iteration's emitted chunk in `splitUTF8SafeChunks`: the bytes from
`start` to the computed `end`, kept as-is when valid and passed through
`strings.ToValidUTF8` with the replacement character otherwise. -/
def chunkOut (input : List Nat) (maxChunkSize start : Nat) : List Nat :=
  let e := chunkEnd input maxChunkSize start
  let chunk := (input.drop start).take (e - start)
  if utf8Valid chunk then chunk else toValidUTF8 chunk replacementCharBytes

/-- The loop of `splitUTF8SafeChunks` with explicit fuel; `none` marks fuel
exhaustion (never reached with `input.length` fuel, see the C6 theorem). -/
def splitLoop (input : List Nat) (maxChunkSize : Nat) : Nat → Nat → Option (List (List Nat))
  | 0, start => if start < input.length then none else some []
  | fuel + 1, start =>
    if start < input.length then
      (splitLoop input maxChunkSize fuel (chunkEnd input maxChunkSize start)).map
        (chunkOut input maxChunkSize start :: ·)
    else some []

/-- Go `splitUTF8SafeChunks` (empty input yields an empty chunk list, the
loop otherwise). -/
def splitUTF8SafeChunks (input : List Nat) (maxChunkSize : Nat) : List (List Nat) :=
  (splitLoop input maxChunkSize input.length 0).getD []


lemma decodeSizeOk_fst_pos (l : List Nat) (hl : l ≠ []) : 1 ≤ (decodeSizeOk l).1 := by
  match l with
  | b :: rest =>
    cases rest with
    | nil =>
      simp only [decodeSizeOk]
      repeat' split
      all_goals simp
    | cons b1 r1 =>
      cases r1 with
      | nil =>
        simp only [decodeSizeOk]
        repeat' split
        all_goals simp
      | cons b2 r2 =>
        cases r2 with
        | nil =>
          simp only [decodeSizeOk]
          repeat' split
          all_goals simp
        | cons b3 r3 =>
          simp only [decodeSizeOk]
          repeat' split
          all_goals simp

lemma decodeSizeOk_le_length (l : List Nat) (sz : Nat)
    (h : decodeSizeOk l = (sz, true)) : sz ≤ l.length := by
  match l with
  | [] => simp [decodeSizeOk] at h
  | b :: rest =>
    cases rest with
    | nil =>
      simp only [decodeSizeOk] at h
      repeat' split at h
      all_goals simp_all
    | cons b1 r1 =>
      cases r1 with
      | nil =>
        simp only [decodeSizeOk] at h
        repeat' split at h
        all_goals (simp_all; try omega)
      | cons b2 r2 =>
        cases r2 with
        | nil =>
          simp only [decodeSizeOk] at h
          repeat' split at h
          all_goals (simp_all; try omega)
        | cons b3 r3 =>
          simp only [decodeSizeOk] at h
          repeat' split at h
          all_goals (simp_all; try omega)

lemma backoff_le (input : List Nat) (start : Nat) : ∀ e, backoff input start e ≤ e := by
  intro e
  induction e with
  | zero => simp [backoff]
  | succ e ih =>
    unfold backoff
    split
    · omega
    · omega

lemma backoff_spec (input : List Nat) (start : Nat) : ∀ e,
    backoff input start e ≤ start ∨ input.length ≤ backoff input start e ∨
      isCont (input.getD (backoff input start e) 0) = false := by
  intro e
  induction e with
  | zero => simp [backoff]
  | succ e ih =>
    unfold backoff
    split
    · exact ih
    · rename_i hc
      by_cases h1 : start < e + 1
      · by_cases h2 : e + 1 < input.length
        · right
          right
          cases hr : runeStart (input.getD (e + 1) 0) with
          | true => simpa [runeStart] using hr
          | false =>
            exact absurd (by rw [hr]; simp [h1, h2]) hc
        · right
          left
          omega
      · left
        omega

lemma getD_drop (l : List Nat) (n m d : Nat) : (l.drop n).getD m d = l.getD (n + m) d := by
  simp [List.getD, List.getElem?_drop]


lemma isCont_iff (b : Nat) : isCont b = true ↔ (0x80 ≤ b ∧ b ≤ 0xBF) := by
  unfold isCont
  rw [Bool.and_eq_true, decide_eq_true_iff, decide_eq_true_iff]

lemma isCont_eq_false_iff (b : Nat) : isCont b = false ↔ ¬(0x80 ≤ b ∧ b ≤ 0xBF) := by
  rw [← isCont_iff, Bool.not_eq_true]

lemma utf8ValidFuel_congr : ∀ (f1 f2 : Nat) (l : List Nat),
    l.length ≤ f1 → l.length ≤ f2 → utf8ValidFuel f1 l = utf8ValidFuel f2 l := by
  intro f1
  induction f1 with
  | zero =>
    intro f2 l h1 _
    have : l = [] := by
      cases l with
      | nil => rfl
      | cons b rest => simp at h1
    subst this
    cases f2 <;> rfl
  | succ f1 ih =>
    intro f2 l h1 h2
    cases l with
    | nil => cases f2 <;> rfl
    | cons b rest =>
      cases f2 with
      | zero => simp at h2
      | succ f2 =>
        simp only [utf8ValidFuel]
        cases hdec : decodeSizeOk (b :: rest) with
        | mk sz ok =>
          cases ok with
          | false => rfl
          | true =>
            have hsz : 1 ≤ sz := by
              have := decodeSizeOk_fst_pos (b :: rest) (by simp)
              rw [hdec] at this
              exact this
            have hlen : ((b :: rest).drop sz).length ≤ f1 := by
              simp only [List.length_drop, List.length_cons] at h1 ⊢
              omega
            have hlen2 : ((b :: rest).drop sz).length ≤ f2 := by
              simp only [List.length_drop, List.length_cons] at h2 ⊢
              omega
            exact ih f2 _ hlen hlen2

lemma utf8Valid_cons_eq (b : Nat) (rest : List Nat) :
    utf8Valid (b :: rest) =
      (match decodeSizeOk (b :: rest) with
        | (_, false) => false
        | (sz, true) => utf8Valid ((b :: rest).drop sz)) := by
  show utf8ValidFuel (rest.length + 1) (b :: rest) = _
  simp only [utf8ValidFuel]
  cases hdec : decodeSizeOk (b :: rest) with
  | mk sz ok =>
    cases ok with
    | false => rfl
    | true =>
      have hsz : 1 ≤ sz := by
        have := decodeSizeOk_fst_pos (b :: rest) (by simp)
        rw [hdec] at this
        exact this
      exact utf8ValidFuel_congr _ _ _ (by simp; omega) (by simp)

lemma utf8Valid_decode (l : List Nat) (hv : utf8Valid l = true) (hne : l ≠ []) :
    ∃ sz, decodeSizeOk l = (sz, true) ∧ 1 ≤ sz ∧ sz ≤ l.length ∧
      utf8Valid (l.drop sz) = true := by
  match l with
  | b :: rest =>
    rw [utf8Valid_cons_eq] at hv
    cases hdec : decodeSizeOk (b :: rest) with
    | mk sz ok =>
      rw [hdec] at hv
      cases ok with
      | false => simp at hv
      | true =>
        refine ⟨sz, rfl, ?_, ?_, hv⟩
        · have := decodeSizeOk_fst_pos (b :: rest) (by simp)
          rw [hdec] at this
          exact this
        · exact decodeSizeOk_le_length _ _ hdec

lemma utf8Valid_of_decode (l : List Nat) (sz : Nat) (hdec : decodeSizeOk l = (sz, true))
    (hrest : utf8Valid (l.drop sz) = true) : utf8Valid l = true := by
  match l with
  | [] => simp [decodeSizeOk] at hdec
  | b :: rest =>
    rw [utf8Valid_cons_eq, hdec]
    exact hrest

lemma isCont_of_accept2 (b0 b1 : Nat) (h : accept2 b0 b1 = true) : isCont b1 = true := by
  unfold accept2 at h
  rw [isCont_iff]
  split at h
  · simp only [Bool.and_eq_true, decide_eq_true_iff] at h
    omega
  · split at h
    · simp only [Bool.and_eq_true, decide_eq_true_iff] at h
      omega
    · split at h
      · simp only [Bool.and_eq_true, decide_eq_true_iff] at h
        omega
      · split at h
        · simp only [Bool.and_eq_true, decide_eq_true_iff] at h
          omega
        · rw [isCont_iff] at h
          omega

lemma decodeSizeOk_ascii (b : Nat) (rest : List Nat) (h : b < 0x80) :
    decodeSizeOk (b :: rest) = (1, true) := by
  simp only [decodeSizeOk]
  rw [if_pos h]

lemma decodeSizeOk_two (b b1 : Nat) (rest : List Nat) (h1 : 0xC2 ≤ b) (h2 : b ≤ 0xDF)
    (hc : isCont b1 = true) : decodeSizeOk (b :: b1 :: rest) = (2, true) := by
  simp only [decodeSizeOk]
  rw [if_neg (by omega), if_neg (by omega), if_pos h2, if_pos hc]

lemma decodeSizeOk_three (b b1 b2 : Nat) (rest : List Nat) (h1 : 0xE0 ≤ b) (h2 : b ≤ 0xEF)
    (ha : accept2 b b1 = true) (hc : isCont b2 = true) :
    decodeSizeOk (b :: b1 :: b2 :: rest) = (3, true) := by
  simp only [decodeSizeOk]
  rw [if_neg (by omega), if_neg (by omega), if_neg (by omega), if_pos h2,
    if_pos (by rw [ha, hc]; rfl)]

lemma decodeSizeOk_four (b b1 b2 b3 : Nat) (rest : List Nat) (h1 : 0xF0 ≤ b) (h2 : b ≤ 0xF4)
    (ha : accept2 b b1 = true) (hc2 : isCont b2 = true) (hc3 : isCont b3 = true) :
    decodeSizeOk (b :: b1 :: b2 :: b3 :: rest) = (4, true) := by
  simp only [decodeSizeOk]
  rw [if_neg (by omega), if_neg (by omega), if_neg (by omega), if_neg (by omega), if_pos h2,
    if_pos (by rw [ha, hc2, hc3]; rfl)]

lemma decodeSizeOk_spec (l : List Nat) (sz : Nat) (h : decodeSizeOk l = (sz, true)) :
    (sz = 1 ∧ ∃ b rest, l = b :: rest ∧ b < 0x80) ∨
    (sz = 2 ∧ ∃ b b1 rest, l = b :: b1 :: rest ∧ 0xC2 ≤ b ∧ b ≤ 0xDF ∧ isCont b1 = true) ∨
    (sz = 3 ∧ ∃ b b1 b2 rest, l = b :: b1 :: b2 :: rest ∧ 0xE0 ≤ b ∧ b ≤ 0xEF ∧
      accept2 b b1 = true ∧ isCont b2 = true) ∨
    (sz = 4 ∧ ∃ b b1 b2 b3 rest, l = b :: b1 :: b2 :: b3 :: rest ∧ 0xF0 ≤ b ∧ b ≤ 0xF4 ∧
      accept2 b b1 = true ∧ isCont b2 = true ∧ isCont b3 = true) := by
  match l with
  | [] => simp [decodeSizeOk] at h
  | [b] =>
    simp only [decodeSizeOk] at h
    split at h
    · left
      simp only [Prod.mk.injEq] at h
      exact ⟨h.1.symm, b, [], rfl, by assumption⟩
    · repeat' split at h
      all_goals simp at h
  | [b, b1] =>
    simp only [decodeSizeOk] at h
    split at h
    · left
      simp only [Prod.mk.injEq] at h
      exact ⟨h.1.symm, b, [b1], rfl, by assumption⟩
    · split at h
      · simp at h
      · split at h
        · split at h
          · rename_i hb0 hb1 hb2 hc
            simp only [Prod.mk.injEq] at h
            right
            left
            exact ⟨h.1.symm, b, b1, [], rfl, by omega, hb2, hc⟩
          · simp at h
        · repeat' split at h
          all_goals simp at h
  | [b, b1, b2] =>
    simp only [decodeSizeOk] at h
    split at h
    · left
      simp only [Prod.mk.injEq] at h
      exact ⟨h.1.symm, b, [b1, b2], rfl, by assumption⟩
    · split at h
      · simp at h
      · split at h
        · split at h
          · rename_i hb0 hb1 hb2 hc
            simp only [Prod.mk.injEq] at h
            right
            left
            exact ⟨h.1.symm, b, b1, [b2], rfl, by omega, hb2, hc⟩
          · simp at h
        · split at h
          · split at h
            · rename_i hb0 hb1 hb2 hb3 hc
              simp only [Bool.and_eq_true] at hc
              simp only [Prod.mk.injEq] at h
              right
              right
              left
              exact ⟨h.1.symm, b, b1, b2, [], rfl, by omega, by omega, hc.1, hc.2⟩
            · simp at h
          · repeat' split at h
            all_goals simp at h
  | b :: b1 :: b2 :: b3 :: r =>
    simp only [decodeSizeOk] at h
    split at h
    · left
      simp only [Prod.mk.injEq] at h
      exact ⟨h.1.symm, b, b1 :: b2 :: b3 :: r, rfl, by assumption⟩
    · split at h
      · simp at h
      · split at h
        · split at h
          · rename_i hb0 hb1 hb2 hc
            simp only [Prod.mk.injEq] at h
            right
            left
            exact ⟨h.1.symm, b, b1, b2 :: b3 :: r, rfl, by omega, hb2, hc⟩
          · simp at h
        · split at h
          · split at h
            · rename_i hb0 hb1 hb2 hb3 hc
              simp only [Bool.and_eq_true] at hc
              simp only [Prod.mk.injEq] at h
              right
              right
              left
              exact ⟨h.1.symm, b, b1, b2, b3 :: r, rfl, by omega, by omega, hc.1, hc.2⟩
            · simp at h
          · split at h
            · split at h
              · rename_i hb0 hb1 hb2 hb3 hb4 hc
                simp only [Bool.and_eq_true] at hc
                simp only [Prod.mk.injEq] at h
                right
                right
                right
                exact ⟨h.1.symm, b, b1, b2, b3, r, rfl, by omega, by omega,
                  hc.1.1, hc.1.2, hc.2⟩
              · simp at h
            · simp at h

lemma decode_head_not_cont (l : List Nat) (sz : Nat) (h : decodeSizeOk l = (sz, true)) :
    isCont (l.getD 0 0) = false := by
  rcases decodeSizeOk_spec l sz h with ⟨_, b, rest, rfl, hb⟩ |
    ⟨_, b, b1, rest, rfl, hb, _, _⟩ | ⟨_, b, b1, b2, rest, rfl, hb, _, _, _⟩ |
    ⟨_, b, b1, b2, b3, rest, rfl, hb, _, _, _, _⟩ <;>
    (simp only [List.getD_cons_zero]; rw [isCont_eq_false_iff]; omega)

lemma decode_cont_bytes (l : List Nat) (sz : Nat) (h : decodeSizeOk l = (sz, true)) :
    ∀ k, 1 ≤ k → k < sz → isCont (l.getD k 0) = true := by
  intro k hk1 hk2
  rcases decodeSizeOk_spec l sz h with ⟨hsz, b, rest, rfl, hb⟩ |
    ⟨hsz, b, b1, rest, rfl, hb1, hb2, hc⟩ |
    ⟨hsz, b, b1, b2, rest, rfl, hb1, hb2, ha, hc⟩ |
    ⟨hsz, b, b1, b2, b3, rest, rfl, hb1, hb2, ha, hc2, hc3⟩
  · omega
  · have : k = 1 := by omega
    subst this
    simpa using hc
  · subst hsz
    interval_cases k
    · simpa using isCont_of_accept2 b b1 ha
    · simpa using hc
  · subst hsz
    interval_cases k
    · simpa using isCont_of_accept2 b b1 ha
    · simpa using hc2
    · simpa using hc3

lemma decode_take_prefix (l : List Nat) (sz : Nat) (h : decodeSizeOk l = (sz, true))
    (m : List Nat) : decodeSizeOk (l.take sz ++ m) = (sz, true) := by
  rcases decodeSizeOk_spec l sz h with ⟨hsz, b, rest, rfl, hb⟩ |
    ⟨hsz, b, b1, rest, rfl, hb1, hb2, hc⟩ |
    ⟨hsz, b, b1, b2, rest, rfl, hb1, hb2, ha, hc⟩ |
    ⟨hsz, b, b1, b2, b3, rest, rfl, hb1, hb2, ha, hc2, hc3⟩
  · subst hsz
    simpa using decodeSizeOk_ascii b m hb
  · subst hsz
    simpa using decodeSizeOk_two b b1 m hb1 hb2 hc
  · subst hsz
    simpa using decodeSizeOk_three b b1 b2 m (by omega) hb2 ha hc
  · subst hsz
    simpa using decodeSizeOk_four b b1 b2 b3 m (by omega) hb2 ha hc2 hc3

lemma decode_take_append (l : List Nat) (sz : Nat) (h : decodeSizeOk l = (sz, true))
    (m : List Nat) (hm : utf8Valid m = true) : utf8Valid (l.take sz ++ m) = true := by
  have hd := decode_take_prefix l sz h m
  refine utf8Valid_of_decode _ sz hd ?_
  have hlen : (l.take sz).length = sz := by
    have := decodeSizeOk_le_length l sz h
    simp [List.length_take]
    omega
  have heq : (l.take sz ++ m).drop sz = m := by
    rw [List.drop_append_eq_append_drop, List.drop_eq_nil_of_le (by omega), hlen,
      Nat.sub_self, List.drop_zero, List.nil_append]
  rw [heq]
  exact hm

lemma utf8Valid_split (j : Nat) : ∀ (l : List Nat), utf8Valid l = true → j ≤ l.length →
    (j = l.length ∨ isCont (l.getD j 0) = false) →
    utf8Valid (l.take j) = true ∧ utf8Valid (l.drop j) = true := by
  induction j using Nat.strong_induction_on with
  | _ j ih =>
    intro l hv hle hbd
    by_cases hj : j = 0
    · subst hj
      exact ⟨rfl, by simpa using hv⟩
    · have hlne : l ≠ [] := by
        intro hnil
        subst hnil
        simp at hle
        omega
      obtain ⟨sz, hdec, hsz1, hszle, hdrop⟩ := utf8Valid_decode l hv hlne
      have hjsz : sz ≤ j := by
        by_contra hlt
        push_neg at hlt
        have hk := decode_cont_bytes l sz hdec j (by omega) hlt
        rcases hbd with hbd | hbd
        · omega
        · rw [hbd] at hk
          simp at hk
      have hrec := ih (j - sz) (by omega) (l.drop sz) hdrop
        (by simp only [List.length_drop]; omega) ?_
      · obtain ⟨htake', hdrop'⟩ := hrec
        constructor
        · have hsplit : l.take j = l.take sz ++ (l.drop sz).take (j - sz) := by
            have hj2 : j = sz + (j - sz) := by omega
            rw [hj2, List.take_add]
            congr 2
            omega
          rw [hsplit]
          exact decode_take_append l sz hdec _ htake'
        · have hsplit : l.drop j = (l.drop sz).drop (j - sz) := by
            rw [List.drop_drop]
            congr 1
            omega
          rw [hsplit]
          exact hdrop'
      · rcases hbd with hbd | hbd
        · left
          simp only [List.length_drop]
          omega
        · right
          rw [getD_drop]
          have : sz + (j - sz) = j := by omega
          rw [this]
          exact hbd

lemma chunkEnd_bounds (input : List Nat) (maxChunkSize start : Nat) (h : start < input.length) :
    start < chunkEnd input maxChunkSize start ∧ chunkEnd input maxChunkSize start ≤ input.length := by
  simp only [chunkEnd]
  split
  · have hne : input.drop start ≠ [] := by
      intro hnil
      have := List.drop_eq_nil_iff.mp hnil
      omega
    have hsz := decodeSizeOk_fst_pos _ hne
    constructor
    · split
      · omega
      · rename_i h0
        have h1 : 1 ≤ (decodeSizeOk (input.drop start)).1 := hsz
        omega
    · split
      · omega
      · omega
  · rename_i h1
    have hle := backoff_le input start (min (start + maxChunkSize) input.length)
    constructor
    · omega
    · omega

lemma chunkEnd_boundary (input : List Nat) (maxChunkSize start : Nat)
    (h : start < input.length) (hv : utf8Valid (input.drop start) = true) :
    chunkEnd input maxChunkSize start = input.length ∨
      isCont (input.getD (chunkEnd input maxChunkSize start) 0) = false := by
  simp only [chunkEnd]
  split
  · have hne : input.drop start ≠ [] := by
      intro hnil
      have := List.drop_eq_nil_iff.mp hnil
      omega
    obtain ⟨sz, hdec, hsz1, hszle, hdrop⟩ := utf8Valid_decode _ hv hne
    rw [hdec]
    simp only []
    rw [if_neg (by omega)]
    have hlen : (input.drop start).length = input.length - start := by simp
    have hle2 : start + sz ≤ input.length := by omega
    rw [Nat.min_eq_left hle2]
    by_cases heq : start + sz = input.length
    · left
      exact heq
    · right
      have hdd : (input.drop start).drop sz = input.drop (start + sz) := by
        rw [List.drop_drop]
      have hvs : utf8Valid (input.drop (start + sz)) = true := by
        rw [← hdd]
        exact hdrop
      have hnn : input.drop (start + sz) ≠ [] := by
        intro hnil
        have := List.drop_eq_nil_iff.mp hnil
        omega
      obtain ⟨sz2, hdec2, _, _, _⟩ := utf8Valid_decode _ hvs hnn
      have := decode_head_not_cont _ _ hdec2
      rwa [getD_drop, Nat.add_zero] at this
  · rename_i h1
    rcases backoff_spec input start (min (start + maxChunkSize) input.length) with hs | hs | hs
    · omega
    · left
      have hle := backoff_le input start (min (start + maxChunkSize) input.length)
      omega
    · right
      exact hs

lemma splitLoop_some (input : List Nat) (maxChunkSize : Nat) : ∀ (fuel start : Nat),
    input.length - start ≤ fuel → (splitLoop input maxChunkSize fuel start).isSome = true := by
  intro fuel
  induction fuel with
  | zero =>
    intro start hle
    unfold splitLoop
    split
    · omega
    · simp
  | succ fuel ih =>
    intro start hle
    unfold splitLoop
    split
    · rename_i hs
      have hb := chunkEnd_bounds input maxChunkSize start hs
      have hsub := ih (chunkEnd input maxChunkSize start) (by omega)
      obtain ⟨cs, hcs⟩ := Option.isSome_iff_exists.mp hsub
      rw [hcs]
      rfl
    · simp

lemma splitLoop_join (input : List Nat) (maxChunkSize : Nat) : ∀ (fuel start : Nat)
    (cs : List (List Nat)), utf8Valid (input.drop start) = true →
    splitLoop input maxChunkSize fuel start = some cs →
    cs.foldr (· ++ ·) [] = input.drop start := by
  intro fuel
  induction fuel with
  | zero =>
    intro start cs hv hs
    unfold splitLoop at hs
    split at hs
    · simp at hs
    · rename_i hge
      simp only [Option.some.injEq] at hs
      subst hs
      simp only [List.foldr_nil]
      rw [List.drop_eq_nil_of_le (by omega)]
  | succ fuel ih =>
    intro start cs hv hs
    unfold splitLoop at hs
    split at hs
    · rename_i hlt
      obtain ⟨hprog, hle⟩ := chunkEnd_bounds input maxChunkSize start hlt
      rcases Option.map_eq_some'.mp hs with ⟨cs', hs', rfl⟩
      have hseg := utf8Valid_split (chunkEnd input maxChunkSize start - start) (input.drop start) hv
        (by simp only [List.length_drop]; omega) ?_
      · obtain ⟨htake, hdrop⟩ := hseg
        have hdd : (input.drop start).drop (chunkEnd input maxChunkSize start - start) =
            input.drop (chunkEnd input maxChunkSize start) := by
          rw [List.drop_drop]
          congr 1
          omega
        have hrec := ih (chunkEnd input maxChunkSize start) cs' (by rwa [hdd] at hdrop) hs'
        simp only [List.foldr_cons, hrec]
        simp only [chunkOut]
        rw [if_pos htake, ← hdd]
        exact List.take_append_drop _ _
      · rcases chunkEnd_boundary input maxChunkSize start hlt hv with hbd | hbd
        · left
          simp only [List.length_drop]
          omega
        · right
          rw [getD_drop]
          have heq2 : start + (chunkEnd input maxChunkSize start - start) =
              chunkEnd input maxChunkSize start := by omega
          rw [heq2]
          exact hbd
    · rename_i hge
      simp only [Option.some.injEq] at hs
      subst hs
      simp only [List.foldr_nil]
      rw [List.drop_eq_nil_of_le (by omega)]

/-- C6: `splitUTF8SafeChunks` terminates for every input and positive byte
budget: every loop iteration advances `start` by at least one byte; when
the back-off reaches the start of the chunk the algorithm advances by
exactly one decoded codepoint's byte length; and the loop completes within
`input.length` iterations. -/
theorem claim_C6_chunker_terminates (input : List Nat) (maxChunkSize : Nat)
    (hpos : 0 < maxChunkSize) :
    (∀ start, start < input.length → start + 1 ≤ chunkEnd input maxChunkSize start) ∧
    (∀ start, start < input.length →
      backoff input start (min (start + maxChunkSize) input.length) ≤ start →
      chunkEnd input maxChunkSize start =
        min (start + (if (decodeSizeOk (input.drop start)).1 = 0 then 1
          else (decodeSizeOk (input.drop start)).1)) input.length) ∧
    ∃ cs, splitLoop input maxChunkSize input.length 0 = some cs ∧
      splitUTF8SafeChunks input maxChunkSize = cs := by
  refine ⟨?_, ?_, ?_⟩
  · intro start hs
    have := (chunkEnd_bounds input maxChunkSize start hs).1
    omega
  · intro start _ hback
    simp only [chunkEnd]
    rw [if_pos hback]
  · have hsome := splitLoop_some input maxChunkSize input.length 0 (by omega)
    obtain ⟨cs, hcs⟩ := Option.isSome_iff_exists.mp hsome
    exact ⟨cs, hcs, by simp [splitUTF8SafeChunks, hcs]⟩

/-- C3 (amended): for every *valid UTF-8* input and every positive byte
budget, concatenating the chunks returned by `splitUTF8SafeChunks` yields
byte-for-byte the original input. -/
theorem claim_C3_roundtrip_amended (input : List Nat) (maxChunkSize : Nat)
    (hpos : 0 < maxChunkSize) (hvalid : utf8Valid input = true) :
    (splitUTF8SafeChunks input maxChunkSize).foldr (· ++ ·) [] = input := by
  have hsome := splitLoop_some input maxChunkSize input.length 0 (by omega)
  obtain ⟨cs, hcs⟩ := Option.isSome_iff_exists.mp hsome
  have hjoin := splitLoop_join input maxChunkSize input.length 0 cs (by simpa using hvalid) hcs
  rw [splitUTF8SafeChunks, hcs]
  simpa using hjoin

/-- C3 counterexample: on the non-UTF-8 input byte `0x80` the single
produced chunk is rewritten by `strings.ToValidUTF8` to the replacement
character, so the concatenation differs from the input. -/
theorem claim_C3_roundtrip_counterexample :
    0 < 64 ∧ splitUTF8SafeChunks [128] 64 = [[239, 191, 189]] ∧
    (splitUTF8SafeChunks [128] 64).foldr (· ++ ·) [] ≠ [128] := by
  decide

/-- Witness for the amended C3 at a concrete mixed ASCII/multibyte
input. -/
theorem claim_C3_roundtrip_amended_witness :
    0 < 2 ∧ utf8Valid [97, 228, 189, 160, 98] = true ∧
    (splitUTF8SafeChunks [97, 228, 189, 160, 98] 2).foldr (· ++ ·) [] =
      [97, 228, 189, 160, 98] :=
  ⟨by decide, by decide,
    claim_C3_roundtrip_amended [97, 228, 189, 160, 98] 2 (by decide) (by decide)⟩

/-- Witness for C6 at a concrete multibyte input whose first chunk forces
the one-codepoint advance. -/
theorem claim_C6_chunker_terminates_witness :
    0 < 2 ∧
    ((∀ start, start < ([228, 189, 160, 97] : List Nat).length →
        start + 1 ≤ chunkEnd [228, 189, 160, 97] 2 start) ∧
      (∀ start, start < ([228, 189, 160, 97] : List Nat).length →
        backoff [228, 189, 160, 97] start (min (start + 2) ([228, 189, 160, 97] : List Nat).length) ≤ start →
        chunkEnd [228, 189, 160, 97] 2 start =
          min (start + (if (decodeSizeOk (([228, 189, 160, 97] : List Nat).drop start)).1 = 0 then 1
            else (decodeSizeOk (([228, 189, 160, 97] : List Nat).drop start)).1))
            ([228, 189, 160, 97] : List Nat).length) ∧
      ∃ cs, splitLoop [228, 189, 160, 97] 2 ([228, 189, 160, 97] : List Nat).length 0 = some cs ∧
        splitUTF8SafeChunks [228, 189, 160, 97] 2 = cs) :=
  ⟨by decide, claim_C6_chunker_terminates [228, 189, 160, 97] 2 (by decide)⟩
